import Mathlib

/-!
Verification of the mdoc document-builder core (src/src/lib.rs): a shallow
embedding of the data model (Inline, Line, Mdoc), the line-rendering
algorithm, and the escaping utilities, together with theorems settling the
specification claims about them.

Strings are modelled by Lean `String` (a packed `List Char`), writer-style
output by string concatenation: the Rust code only ever appends to the
output sink, so a render function that returns the appended text is a
faithful model of the `write!` sequence.
-/

namespace MdocSpec

/-- The apostrophe character (ASCII 39). -/
def apos : Char := Char.ofNat 39

/-- Model of Rust `str::replace` specialised to a two-character pattern
`[a, b]`: every leftmost, non-overlapping occurrence of the pattern is
replaced by `r`, scanning left to right. Both patterns used by
`escape_leading_cc` in the source are two characters long (newline then
period, newline then apostrophe), so this captures exactly the `replace`
calls the source makes. -/
def replace2 (a b : Char) (r : List Char) : List Char → List Char
  | [] => []
  | [c] => [c]
  | c :: d :: rest =>
      if c = a ∧ d = b then r ++ replace2 a b r rest
      else c :: replace2 a b r (d :: rest)

/-- Decidable test: does the list contain the two-character pattern
`[a, b]` as a contiguous subsequence? Used to state the escape-function
claims (text containing, or not containing, newline+control-char). -/
def hasPair (a b : Char) : List Char → Bool
  | [] => false
  | [_] => false
  | c :: d :: rest => (decide (c = a) && decide (d = b)) || hasPair a b (d :: rest)

/-- Model of `fn escape_leading_cc` (lib.rs):
first replace newline+period by newline, backslash, ampersand, period,
then replace newline+apostrophe by newline, backslash, ampersand,
apostrophe. -/
def escape_leading_cc (s : String) : String :=
  String.mk (replace2 '\n' apos ['\n', '\\', '&', apos]
    (replace2 '\n' '.' ['\n', '\\', '&', '.'] s.data))

/-- Model of `fn starts_with_period` (lib.rs): `line.starts_with` on the
period character. -/
def starts_with_period (line : String) : Bool :=
  match line.data with
  | [] => false
  | c :: _ => decide (c = '.')

/-- Model of `enum Inline` (lib.rs). -/
inductive Inline where
  | Roman (text : String)
  | Italic (text : String)
  | Bold (text : String)
  | LineBreak
deriving Repr, DecidableEq

/-- Model of `enum Line` (lib.rs): a control line (macro name plus
arguments) or a text line (a sequence of inline items). -/
inductive Line where
  | Control (name : String) (args : List String)
  | Text (inlines : List Inline)
deriving Repr, DecidableEq

/-- The argument loop of `Line::render` for control lines: for each
argument in order, a separating space then the raw argument text. -/
def renderArgs : List String → String
  | [] => ""
  | a :: rest => " " ++ a ++ renderArgs rest

/-- One iteration of the inline loop in `Line::render`, given the current
`at_line_start` flag. Bold and italic text is written with the raw format
strings of the source (literal backslash, `n`, then `.Sy `/`.Em `, the
escaped text, then literal backslash, `n`); roman text gets the
non-printing marker backslash-ampersand prepended when it sits at the
start of the line and its escaped text starts with a period. -/
def renderInline (at_line_start : Bool) : Inline → String
  | .LineBreak => if at_line_start then ".br\n" else "\n.br\n"
  | .Bold t => "\\n.Sy " ++ escape_leading_cc t ++ "\\n"
  | .Italic t => "\\n.Em " ++ escape_leading_cc t ++ "\\n"
  | .Roman t =>
      (if at_line_start && starts_with_period (escape_leading_cc t)
        then "\\&" else "") ++ escape_leading_cc t

/-- The inline loop of `Line::render`: `at_line_start` starts `true` and
is unconditionally set to `false` after every item. -/
def renderInlines : Bool → List Inline → String
  | _, [] => ""
  | als, i :: rest => renderInline als i ++ renderInlines false rest

/-- Model of `Line::render` (lib.rs): a control line is the control
character, the name, then the arguments; a text line is the inline loop
starting with `at_line_start = true`. Both end with the final `writeln`. -/
def Line.render : Line → String
  | .Control name args => "." ++ name ++ renderArgs args ++ "\n"
  | .Text inlines => renderInlines true inlines ++ "\n"

/-- Model of `struct DocumentDate` (the `Month`, `Day`, `Year` wrapper
types of the source are transparent wrappers over strings and are
modelled by plain strings). -/
structure DocumentDate where
  month : String := ""
  day : String := ""
  year : String := ""
deriving Repr, DecidableEq

/-- Model of `struct DocumentTitle`. The source field named `section` is
a reserved word in Lean and is called `sectionId` here. -/
structure DocumentTitle where
  title : String := ""
  sectionId : String := ""
  arch : Option String := none
deriving Repr, DecidableEq

/-- Model of `struct OperatingSystem`. -/
structure OperatingSystem where
  system : String := ""
  version : Option String := none
deriving Repr, DecidableEq

/-- Model of `struct Mdoc` (lib.rs), with the same fields; the `Name` and
`Description` wrapper types are modelled by plain strings. Field defaults
mirror the derived `Default` implementation (empty options, strings and
vectors). -/
structure Mdoc where
  date : Option DocumentDate := none
  title : DocumentTitle := {}
  os : Option OperatingSystem := none
  name : String := ""
  description : String := ""
  synopsis : List Line := []
  exit_status : List Line := []
  return_values : List Line := []
  examples : List Line := []
  errors : List Line := []
  files : List Line := []
  environment : List Line := []
  standards : List Line := []
  see_also : List Line := []
  history : List Line := []
  authors : List Line := []
  lines : List Line := []
deriving Repr, DecidableEq

/-- Model of `Mdoc::default()` (the derived `Default`). -/
def Mdoc.default : Mdoc := {}

/-- Model of `Mdoc::new` (lib.rs): stores the fields, then pushes the six
header lines in order (`Dd`, `Dt`, `Os`, `Sh NAME`, `Nm`, `Nd`). -/
def Mdoc.new (date : Option DocumentDate) (title : DocumentTitle)
    (name : String) (description : String) (os : Option OperatingSystem) : Mdoc :=
  { date := date, title := title, os := os, name := name, description := description,
    lines := [
      Line.Control "Dd" (match date with
        | some d => [d.month, d.day, d.year]
        | none => ["$Mdocdate$"]),
      Line.Control "Dt" (match title.arch with
        | some a => [title.title, title.sectionId, a]
        | none => [title.title, title.sectionId]),
      Line.Control "Os" [],
      Line.Control "Sh" ["NAME"],
      Line.Control "Nm" [name],
      Line.Control "Nd" [description] ] }

/-- Model of `Mdoc::control` (lib.rs): append one control line built from
the given name and arguments, passed through as given. -/
def Mdoc.control (m : Mdoc) (name : String) (args : List String) : Mdoc :=
  { m with lines := m.lines ++ [Line.Control name args] }

/-- Model of `Mdoc::text` (lib.rs): append one text line. -/
def Mdoc.text (m : Mdoc) (inlines : List Inline) : Mdoc :=
  { m with lines := m.lines ++ [Line.Text inlines] }

/-- Model of `Mdoc::add_section` (lib.rs): push a `Sh` control line with
the upper-cased title, then extend with the given lines. Rust
`to_uppercase` is modelled by `String.toUpper` (they agree on ASCII). -/
def Mdoc.add_section (m : Mdoc) (title : String) (ls : List Line) : Mdoc :=
  { m with lines := (m.lines ++ [Line.Control "Sh" [title.toUpper]]) ++ ls }

/-- The loop body shared by the `Extend` and `FromIterator`
implementations for `Mdoc` (lib.rs): for each incoming document, extend
the line sequence with its lines. -/
def Mdoc.extendDocs (m : Mdoc) (ds : List Mdoc) : Mdoc :=
  ds.foldl (fun r d => { r with lines := r.lines ++ d.lines }) m

/-- Model of the `FromIterator` implementation: start from the default
document and extend with each incoming document in turn. -/
def Mdoc.fromIterDocs (ds : List Mdoc) : Mdoc :=
  Mdoc.extendDocs Mdoc.default ds

/-- Model of the `From` implementation for inline-convertible values: a
default document with one text line holding the inline item. -/
def Mdoc.fromInline (i : Inline) : Mdoc :=
  Mdoc.text Mdoc.default [i]

/-- The writer loop of `Mdoc::to_writer` (lib.rs): render every line in
order, concatenating the output. -/
def renderLines : List Line → String
  | [] => ""
  | l :: rest => l.render ++ renderLines rest

/-- Model of `Mdoc::render` (lib.rs): write all lines to a buffer and
return the accumulated text. `Mdoc::to_mdoc` performs the identical loop
and is the same function in this model. -/
def Mdoc.render (m : Mdoc) : String :=
  renderLines m.lines

/-- The four append operations named by the header-invariant claim:
`control`, `text`, `add_section` and bulk extension. -/
inductive Op where
  | control (name : String) (args : List String)
  | text (inlines : List Inline)
  | add_section (title : String) (ls : List Line)
  | extend (ds : List Mdoc)

/-- Apply one append operation to a document. -/
def Mdoc.applyOp (m : Mdoc) : Op → Mdoc
  | .control name args => m.control name args
  | .text inlines => m.text inlines
  | .add_section t ls => m.add_section t ls
  | .extend ds => m.extendDocs ds

/-- Apply a sequence of append operations, left to right. -/
def Mdoc.applyOps (m : Mdoc) (ops : List Op) : Mdoc :=
  ops.foldl Mdoc.applyOp m

/-- The six mandatory header lines, as the specification describes them:
`Dd` with the three date tokens or the placeholder, `Dt` with title,
section and optional architecture, `Os`, `Sh NAME`, `Nm` name, `Nd`
description. -/
def mandatoryHeader (date : Option DocumentDate) (title : DocumentTitle)
    (name : String) (description : String) : List Line :=
  [ Line.Control "Dd" (match date with
      | some d => [d.month, d.day, d.year]
      | none => ["$Mdocdate$"]),
    Line.Control "Dt" (match title.arch with
      | some a => [title.title, title.sectionId, a]
      | none => [title.title, title.sectionId]),
    Line.Control "Os" [],
    Line.Control "Sh" ["NAME"],
    Line.Control "Nm" [name],
    Line.Control "Nd" [description] ]

/-! ## Helper lemmas on strings and folds -/

/-- Unpacking a packed string gives back the character list. -/
theorem data_mk (l : List Char) : (String.mk l).data = l := rfl

/-- Folding string append over a list factors out the accumulator. -/
theorem str_foldl_append (l : List String) (acc : String) :
    l.foldl (· ++ ·) acc = acc ++ l.foldl (· ++ ·) "" := by
  induction l generalizing acc with
  | nil => exact (String.append_empty acc).symm
  | cons x rest ih =>
    simp only [List.foldl_cons]
    rw [ih (acc ++ x), ih ("" ++ x), String.empty_append, String.append_assoc]

/-- String.join splits off its head element. -/
theorem join_cons (x : String) (l : List String) :
    String.join (x :: l) = x ++ String.join l := by
  simp only [String.join, List.foldl_cons]
  rw [str_foldl_append l ("" ++ x), String.empty_append]

/-- The control-argument loop equals the join of space-prefixed arguments. -/
theorem renderArgs_eq_join (args : List String) :
    renderArgs args = String.join (args.map (fun a => " " ++ a)) := by
  induction args with
  | nil => rfl
  | cons a rest ih =>
    simp only [renderArgs, List.map_cons]
    rw [ih, join_cons]

/-- The writer loop distributes over list append. -/
theorem renderLines_append (l1 l2 : List Line) :
    renderLines (l1 ++ l2) = renderLines l1 ++ renderLines l2 := by
  induction l1 with
  | nil =>
    simp only [List.nil_append, renderLines]
    exact (String.empty_append _).symm
  | cons l rest ih =>
    show l.render ++ renderLines (rest ++ l2)
      = (l.render ++ renderLines rest) ++ renderLines l2
    rw [ih, String.append_assoc]

/-! ## Helper lemmas on the pattern search and replacement -/

/-- Prepending a character keeps a list pattern-free when the new head
cannot complete a pattern with the old head. -/
theorem hasPair_cons_eq_false (a b c : Char) (l : List Char)
    (hl : hasPair a b l = false) (hc : c = a → l.head? ≠ some b) :
    hasPair a b (c :: l) = false := by
  cases l with
  | nil => rfl
  | cons d t =>
    simp only [hasPair]
    rw [hl, Bool.or_false]
    by_cases hca : c = a
    · have hd : ¬(d = b) := fun hdb => hc hca (by simp [hdb])
      simp [hd]
    · simp [hca]

/-- A pattern-free list does not start with the pattern. -/
theorem hasPair_head (a b c d : Char) (rest : List Char)
    (h : hasPair a b (c :: d :: rest) = false) : ¬(c = a ∧ d = b) := by
  rintro ⟨h1, h2⟩
  simp [hasPair, h1, h2] at h

/-- The tail of a pattern-free list is pattern-free. -/
theorem hasPair_tail (a b d : Char) (rest : List Char)
    (h : hasPair a b (d :: rest) = false) : hasPair a b rest = false := by
  cases rest with
  | nil => rfl
  | cons e t =>
    simp only [hasPair, Bool.or_eq_false_iff] at h
    exact h.2

/-- The head of a replaced list is either the original head or the head
of the replacement. -/
theorem replace2_cons_head (a b c0 : Char) (rt : List Char) (s : List Char) :
    (replace2 a b (c0 :: rt) s).head? = s.head?
    ∨ (replace2 a b (c0 :: rt) s).head? = some c0 := by
  cases s with
  | nil => exact Or.inl rfl
  | cons c s2 =>
    cases s2 with
    | nil => exact Or.inl rfl
    | cons d rest =>
      simp only [replace2]
      by_cases h : c = a ∧ d = b
      · rw [if_pos h]
        exact Or.inr rfl
      · rw [if_neg h]
        exact Or.inl rfl

/-- Replacing a pattern that never occurs is the identity. -/
theorem replace2_of_not_hasPair (a b : Char) (r : List Char) (s : List Char) :
    hasPair a b s = false → replace2 a b r s = s := by
  induction s using replace2.induct a b r with
  | case1 => intro _; rfl
  | case2 c => intro _; rfl
  | case3 c d rest hcd ih =>
    intro h
    exact absurd hcd (hasPair_head a b c d rest h)
  | case4 c d rest hcd ih =>
    intro h
    simp only [replace2, if_neg hcd]
    rw [ih (hasPair_tail a b c (d :: rest) h)]

/-- After replacing the pattern `[a, b]` by `[a, x, y, b]`, the pattern
no longer occurs anywhere (the escape marker inserted after the leading
character breaks every occurrence). -/
theorem hasPair_replace2_self (a b x y : Char) (hba : ¬(b = a)) (hxb : ¬(x = b))
    (hxy : ¬(x = a ∧ y = b)) (hya : ¬(y = a)) (s : List Char) :
    hasPair a b (replace2 a b [a, x, y, b] s) = false := by
  induction s using replace2.induct a b [a, x, y, b] with
  | case1 => rfl
  | case2 c => rfl
  | case3 c d rest hcd ih =>
    simp only [replace2, if_pos hcd, List.cons_append, List.nil_append]
    apply hasPair_cons_eq_false
    · apply hasPair_cons_eq_false
      · apply hasPair_cons_eq_false
        · apply hasPair_cons_eq_false
          · exact ih
          · exact fun hb _ => hba hb
        · exact fun hy _ => hya hy
      · exact fun hx hh => hxy ⟨hx, by simpa using hh⟩
    · exact fun _ hh => hxb (by simpa using hh)
  | case4 c d rest hcd ih =>
    simp only [replace2, if_neg hcd]
    apply hasPair_cons_eq_false _ _ _ _ ih
    intro hca hh
    rcases replace2_cons_head a b a [x, y, b] (d :: rest) with h1 | h1
    · rw [h1] at hh
      exact hcd ⟨hca, by simpa using hh⟩
    · rw [h1] at hh
      have hab2 : a = b := by simpa using hh
      exact hba hab2.symm

/-- Replacing a different pattern `[a, b2]` by `[a, x, y, b2]` cannot
introduce an occurrence of the pattern `[a, b]`. -/
theorem hasPair_replace2_other (a b b2 x y : Char) (hab : ¬(a = b)) (hb2a : ¬(b2 = a))
    (hxb : ¬(x = b)) (hxy : ¬(x = a ∧ y = b)) (hya : ¬(y = a)) (s : List Char) :
    hasPair a b s = false → hasPair a b (replace2 a b2 [a, x, y, b2] s) = false := by
  induction s using replace2.induct a b2 [a, x, y, b2] with
  | case1 => intro _; rfl
  | case2 c => intro _; rfl
  | case3 c d rest hcd ih =>
    intro h
    have hrest : hasPair a b rest = false :=
      hasPair_tail a b d rest (hasPair_tail a b c (d :: rest) h)
    simp only [replace2, if_pos hcd, List.cons_append, List.nil_append]
    apply hasPair_cons_eq_false
    · apply hasPair_cons_eq_false
      · apply hasPair_cons_eq_false
        · apply hasPair_cons_eq_false
          · exact ih hrest
          · exact fun hb _ => hb2a hb
        · exact fun hy _ => hya hy
      · exact fun hx hh => hxy ⟨hx, by simpa using hh⟩
    · exact fun _ hh => hxb (by simpa using hh)
  | case4 c d rest hcd ih =>
    intro h
    simp only [replace2, if_neg hcd]
    apply hasPair_cons_eq_false _ _ _ _ (ih (hasPair_tail a b c (d :: rest) h))
    intro hca hh
    rcases replace2_cons_head a b2 a [x, y, b2] (d :: rest) with h1 | h1
    · rw [h1] at hh
      exact (hasPair_head a b c d rest h) ⟨hca, by simpa using hh⟩
    · rw [h1] at hh
      exact hab (by simpa using hh)

/-! ## Helper lemmas on documents -/

/-- Bulk extension appends exactly the joined line sequences. -/
theorem extendDocs_lines (m : Mdoc) (ds : List Mdoc) :
    (Mdoc.extendDocs m ds).lines = m.lines ++ (ds.map Mdoc.lines).flatten := by
  induction ds generalizing m with
  | nil => simp [Mdoc.extendDocs]
  | cons d rest ih =>
    have step : Mdoc.extendDocs m (d :: rest)
        = Mdoc.extendDocs { m with lines := m.lines ++ d.lines } rest := rfl
    rw [step, ih]
    simp [List.append_assoc]

/-- FromIterator produces exactly the joined line sequences. -/
theorem fromIterDocs_lines (ds : List Mdoc) :
    (Mdoc.fromIterDocs ds).lines = (ds.map Mdoc.lines).flatten := by
  show (Mdoc.extendDocs Mdoc.default ds).lines = _
  rw [extendDocs_lines]
  rfl

/-- Every append operation only appends to the line sequence. -/
theorem applyOp_lines (m : Mdoc) (op : Op) :
    ∃ app, (m.applyOp op).lines = m.lines ++ app := by
  cases op with
  | control name args => exact ⟨[Line.Control name args], rfl⟩
  | text inlines => exact ⟨[Line.Text inlines], rfl⟩
  | add_section t ls =>
    refine ⟨[Line.Control "Sh" [t.toUpper]] ++ ls, ?_⟩
    simp [Mdoc.applyOp, Mdoc.add_section, List.append_assoc]
  | extend ds => exact ⟨(ds.map Mdoc.lines).flatten, extendDocs_lines m ds⟩

/-- A sequence of append operations only appends to the line sequence. -/
theorem applyOps_lines (m : Mdoc) (ops : List Op) :
    ∃ app, (m.applyOps ops).lines = m.lines ++ app := by
  induction ops generalizing m with
  | nil => exact ⟨[], (List.append_nil _).symm⟩
  | cons op rest ih =>
    obtain ⟨a1, h1⟩ := applyOp_lines m op
    obtain ⟨a2, h2⟩ := ih (m.applyOp op)
    refine ⟨a1 ++ a2, ?_⟩
    have step : Mdoc.applyOps m (op :: rest) = Mdoc.applyOps (m.applyOp op) rest := rfl
    rw [step, h2, h1, List.append_assoc]

/-! ## Claim theorems -/

/-- Claim C1: for every constructor input, the first six lines of the
document produced by `Mdoc.new` are the `Dd`, `Dt`, `Os`, `Sh NAME`,
`Nm`, `Nd` control lines in order (with the date tokens or the
placeholder, and the architecture when present), and this remains true
after any sequence of append operations, so rendering always emits the
header first. -/
theorem header_invariant (d : Option DocumentDate) (t : DocumentTitle)
    (n de : String) (os : Option OperatingSystem) (ops : List Op) :
    ((Mdoc.new d t n de os).applyOps ops).lines.take 6 = mandatoryHeader d t n de
    ∧ ∃ rest, ((Mdoc.new d t n de os).applyOps ops).render
        = renderLines (mandatoryHeader d t n de) ++ rest := by
  obtain ⟨app, happ⟩ := applyOps_lines (Mdoc.new d t n de os) ops
  have hnew : (Mdoc.new d t n de os).lines = mandatoryHeader d t n de := rfl
  rw [hnew] at happ
  constructor
  · rw [happ]
    have h6 : (mandatoryHeader d t n de).length = 6 := rfl
    rw [← h6]
    exact List.take_left _ _
  · refine ⟨renderLines app, ?_⟩
    show renderLines ((Mdoc.new d t n de os).applyOps ops).lines = _
    rw [happ, renderLines_append]

/-- Claim C2 (divergence witness): the code renders italic and bold text
with the raw format strings of the source, producing a literal
backslash-`n` sequence around `.Em `/`.Sy `, not the font escape pairs
backslash-fI/backslash-fR and backslash-fB/backslash-fR that the claim
(and the repository test suite, `test_render_italic` and
`test_render_bold` in tests.rs) state. -/
theorem italic_bold_literal_backslash_n :
    Line.render (Line.Text [Inline.Italic "foo"]) = "\\n.Em foo\\n\n"
    ∧ Line.render (Line.Text [Inline.Bold "foo"]) = "\\n.Sy foo\\n\n"
    ∧ Line.render (Line.Text [Inline.Italic "foo"]) ≠ "\\fIfoo\\fR\n"
    ∧ Line.render (Line.Text [Inline.Bold "foo"]) ≠ "\\fBfoo\\fR\n" :=
  ⟨by decide, by decide, by decide, by decide⟩

/-- Claim C3 (divergence witness): rendering `text([roman("foo-bar")])`
yields the bytes `foo-bar` plus newline; no hyphen escaping happens
anywhere in the render path, contradicting the claim and the repository
test `test_render_dash` (and the doc-comment example on `Mdoc`), which
expect `foo`, backslash, `-bar` plus newline. -/
theorem roman_dash_not_escaped :
    Line.render (Line.Text [Inline.Roman "foo-bar"]) = "foo-bar\n"
    ∧ Line.render (Line.Text [Inline.Roman "foo-bar"]) ≠ "foo\\-bar\n" :=
  ⟨by decide, by decide⟩

/-- Claim C4: a control line renders as the control character, the name,
then each argument preceded by a single space and passed through exactly
as given — no quoting is added even for whitespace-containing arguments —
terminated by one newline; in particular
`control("foo", ["bar", "foo and bar"])` renders to
`.foo bar foo and bar` plus newline. -/
theorem control_render_no_quoting (name : String) (args : List String) :
    Line.render (Line.Control name args)
      = "." ++ name ++ String.join (args.map (fun a => " " ++ a)) ++ "\n"
    ∧ Line.render (Line.Control "foo" ["bar", "foo and bar"])
      = ".foo bar foo and bar\n" := by
  constructor
  · simp only [Line.render]
    rw [renderArgs_eq_join]
  · decide

/-- Claim C5 counterexample: two consecutive LineBreaks do NOT produce
two adjacent line-break control lines; the `at_line_start` flag is set to
false after every inline item, including a LineBreak, so the second
LineBreak emits a leading newline and a blank line appears between the
two `.br` control lines. -/
theorem consecutive_linebreaks_blank_line :
    Line.render (Line.Text [Inline.LineBreak, Inline.LineBreak]) = ".br\n\n.br\n\n"
    ∧ Line.render (Line.Text [Inline.LineBreak, Inline.LineBreak]) ≠ ".br\n.br\n\n" :=
  ⟨by decide, by decide⟩

/-- Claim C5 as amended: only a LineBreak that is the very first inline
item of the text line emits exactly `.br` plus newline with no leading
blank line; every later LineBreak — even one immediately following
another LineBreak — first terminates the current line with a newline and
then emits the line-break control line. The scenario
`text([roman("roman"), LineBreak, roman("more")])` renders to
`roman`, newline, `.br`, newline, `more`, newline. -/
theorem linebreak_first_item_only (rest : List Inline) :
    renderInlines true (Inline.LineBreak :: rest)
      = ".br\n" ++ renderInlines false rest
    ∧ renderInlines false (Inline.LineBreak :: rest)
      = "\n.br\n" ++ renderInlines false rest
    ∧ Line.render (Line.Text [Inline.Roman "roman", Inline.LineBreak, Inline.Roman "more"])
      = "roman\n.br\nmore\n" :=
  ⟨rfl, rfl, by decide⟩

/-- Claim C6: a Roman item that is the very first item of the line is
emitted with the non-printing marker backslash-ampersand prepended
exactly when its embedded-escaped text starts with the control character,
and the embedded-escape pass neutralizes control characters after
internal newlines: `text([roman(".roman")])` renders to backslash,
ampersand, `.roman`, newline, and `text([roman("foo\n.roman")])` renders
to `foo`, newline, backslash, ampersand, `.roman`, newline. -/
theorem roman_line_start_marker (s : String) (rest : List Inline) :
    renderInlines true (Inline.Roman s :: rest)
      = (if starts_with_period (escape_leading_cc s) then "\\&" else "")
        ++ escape_leading_cc s ++ renderInlines false rest
    ∧ Line.render (Line.Text [Inline.Roman ".roman"]) = "\\&.roman\n"
    ∧ Line.render (Line.Text [Inline.Roman "foo\n.roman"]) = "foo\n\\&.roman\n" := by
  refine ⟨?_, by decide, by decide⟩
  simp only [renderInlines, renderInline, Bool.true_and, String.append_assoc]

/-- Claim C7: the embedded-escape function is idempotent — applying it
twice yields the same result as applying it once, because the inserted
escape marker breaks every newline-plus-control-character pattern. -/
theorem escape_leading_cc_idem (s : String) :
    escape_leading_cc (escape_leading_cc s) = escape_leading_cc s := by
  have h1 : hasPair '\n' '.' (replace2 '\n' '.' ['\n', '\\', '&', '.'] s.data) = false :=
    hasPair_replace2_self '\n' '.' '\\' '&'
      (by decide) (by decide) (by decide) (by decide) s.data
  have h2 : hasPair '\n' '.' (replace2 '\n' apos ['\n', '\\', '&', apos]
      (replace2 '\n' '.' ['\n', '\\', '&', '.'] s.data)) = false :=
    hasPair_replace2_other '\n' '.' apos '\\' '&'
      (by decide) (by decide) (by decide) (by decide) (by decide) _ h1
  have h3 : hasPair '\n' apos (replace2 '\n' apos ['\n', '\\', '&', apos]
      (replace2 '\n' '.' ['\n', '\\', '&', '.'] s.data)) = false :=
    hasPair_replace2_self '\n' apos '\\' '&'
      (by decide) (by decide) (by decide) (by decide) _
  unfold escape_leading_cc
  rw [data_mk, replace2_of_not_hasPair '\n' '.' _ _ h2,
    replace2_of_not_hasPair '\n' apos _ _ h3]

/-- Claim C8: the embedded-escape function is the identity on every
string that contains neither the newline-period pattern nor the
newline-apostrophe pattern; all other characters pass through unchanged. -/
theorem escape_leading_cc_id_of_no_cc (s : String)
    (h1 : hasPair '\n' '.' s.data = false)
    (h2 : hasPair '\n' apos s.data = false) :
    escape_leading_cc s = s := by
  unfold escape_leading_cc
  rw [replace2_of_not_hasPair '\n' '.' _ _ h1,
    replace2_of_not_hasPair '\n' apos _ _ h2]

/-- Witness for claim C8 at a concrete multi-line input with no embedded
control character. -/
theorem escape_leading_cc_id_of_no_cc_witness :
    hasPair '\n' '.' ("ab\ncd").data = false
    ∧ hasPair '\n' apos ("ab\ncd").data = false
    ∧ escape_leading_cc "ab\ncd" = "ab\ncd" :=
  ⟨by decide, by decide, escape_leading_cc_id_of_no_cc "ab\ncd" (by decide) (by decide)⟩

/-- Claim C9: concatenating two documents, via the Extend loop or via
FromIterator, appends the full line sequence of the second (header lines
included) after the first, so the line count of the result is the sum of
the two line counts. -/
theorem concat_line_count (d1 d2 : Mdoc) :
    (Mdoc.extendDocs d1 [d2]).lines = d1.lines ++ d2.lines
    ∧ (Mdoc.extendDocs d1 [d2]).lines.length = d1.lines.length + d2.lines.length
    ∧ (Mdoc.fromIterDocs [d1, d2]).lines = d1.lines ++ d2.lines
    ∧ (Mdoc.fromIterDocs [d1, d2]).lines.length
        = d1.lines.length + d2.lines.length := by
  have h1 : (Mdoc.extendDocs d1 [d2]).lines = d1.lines ++ d2.lines := rfl
  have h2 : (Mdoc.fromIterDocs [d1, d2]).lines = d1.lines ++ d2.lines := by
    rw [fromIterDocs_lines]
    simp
  exact ⟨h1, by rw [h1, List.length_append], h2, by rw [h2, List.length_append]⟩

/-- Claim C10: the default document has an empty line sequence (so it
renders to the empty string); a document obtained from a single inline
item has exactly one text line, and collecting inline-converted documents
with FromIterator yields only text lines — none of these contain any of
the six mandatory header lines, which only `Mdoc.new` emits. -/
theorem default_doc_no_header :
    Mdoc.default.lines = []
    ∧ Mdoc.default.render = ""
    ∧ (∀ i : Inline, (Mdoc.fromInline i).lines = [Line.Text [i]])
    ∧ (∀ is : List Inline, (Mdoc.fromIterDocs (is.map Mdoc.fromInline)).lines
        = is.map (fun i => Line.Text [i]))
    ∧ (∀ i : Inline, ∀ d t n de, ∀ l ∈ (Mdoc.fromInline i).lines,
        l ∉ mandatoryHeader d t n de) := by
  refine ⟨rfl, rfl, fun i => rfl, ?_, ?_⟩
  · intro is
    rw [fromIterDocs_lines, List.map_map]
    induction is with
    | nil => rfl
    | cons i rest ih =>
      simp only [List.map_cons, List.flatten_cons, ih]
      rfl
  · intro i d t n de l hl
    have hl2 : l ∈ [Line.Text [i]] := hl
    have hlt : l = Line.Text [i] := by simpa using hl2
    subst hlt
    intro hmem
    simp [mandatoryHeader] at hmem

end MdocSpec
